import Mathlib

open Matrix

/-
Verification development for the manifold geometry layer of a Riemannian
optimization library.  The embedded code comes from two Python modules:

  pymanopt/manifolds/product.py : the TangentVector value type (a list
    subclass with componentwise operators) and the Product manifold,
    which dispatches every operator index-wise to a list of child
    manifolds.

  pymanopt/manifolds/psd.py : the quotient manifolds PSDFixedRank,
    PSDFixedRankComplex and Elliptope over low-rank factor matrices Y.

Machine floats are idealized as exact real scalars.  Complex matrices
are embedded as pairs of real matrices (re, im); all complex operations
below are spelled out on that pair representation.  The SciPy routine
solve_continuous_lyapunov (an external collaborator) is modelled
relationally by its contract: it returns a matrix X with A X + X A^H = Q.
-/

-- ## TangentVector (product.py, lines 10-28)

/-- Embedding of TangentVector.__add__: assert len(self) == len(other),
then return the componentwise sum.  A failed Python assert is an
AssertionError, modelled by the error branch. -/
def tvAdd {β : Type} [Add β] (G H : List β) : Except String (List β) :=
  if G.length = H.length then
    .ok (List.zipWith (fun a b => a + b) G H)
  else
    .error "AssertionError"

/-- Embedding of TangentVector.__sub__ (same assert, componentwise
difference). -/
def tvSub {β : Type} [Sub β] (G H : List β) : Except String (List β) :=
  if G.length = H.length then
    .ok (List.zipWith (fun a b => a - b) G H)
  else
    .error "AssertionError"

/-- Embedding of the method named __div__ defined on TangentVector in
product.py lines 24-25: componentwise division of every entry by the
scalar argument.  Note this embeds the method body only; Python 3 never
calls this method for the / operator (see tvDivOp). -/
def tvDivMethod {β : Type} [Div β] (G : List β) (c : β) : List β :=
  G.map (fun v => v / c)

/-- Embedding of the Python 3 evaluation of the expression G / c for a
TangentVector G.  Python 3 dispatches / to a slot named __truediv__;
TangentVector defines only the Python 2 slot named __div__, and its base
class list defines no division slot either, so the expression raises
TypeError unconditionally.  The method tvDivMethod above is dead code
under Python 3. -/
def tvDivOp {β : Type} (_G : List β) (_c : β) : Except String (List β) :=
  .error "TypeError: unsupported operand type for /"

/-- Embedding of TangentVector.__neg__ (componentwise negation). -/
def tvNeg {β : Type} [Neg β] (G : List β) : List β :=
  G.map (fun v => -v)

/-- Embedding of TangentVector.__mul__ and __rmul__ (scalar times each
component). -/
def tvMul {β : Type} [Mul β] (G : List β) (c : β) : List β :=
  G.map (fun v => c * v)

-- ## Constructors of the PSD-family manifolds (psd.py)

/-- Shape data stored by the constructors of PSDFixedRank,
PSDFixedRankComplex and Elliptope: the sizes n and k, the name string
and the dimension attribute. -/
structure ManifoldShape where
  n : ℕ
  k : ℕ
  name : String
  dimension : ℤ
deriving Repr, DecidableEq

/-- Embedding of PSDFixedRank.__init__ (psd.py lines 97-100).  The body
only formats the name and computes dimension = k n - k (k-1)/2; it
contains no parameter validation and no raise statement, so the error
branch of the Except is never taken. -/
def PSDFixedRank_init (n k : ℕ) : Except String ManifoldShape :=
  .ok { n := n, k := k,
        name := "Quotient manifold of " ++ toString n ++ "x" ++ toString n
          ++ " psd matrices of rank " ++ toString k,
        dimension := (k : ℤ) * n - (k : ℤ) * ((k : ℤ) - 1) / 2 }

/-- Embedding of PSDFixedRankComplex.__init__ (psd.py lines 128-131);
dimension = 2 k n - k^2, again with no validation. -/
def PSDFixedRankComplex_init (n k : ℕ) : Except String ManifoldShape :=
  .ok { n := n, k := k,
        name := "Quotient manifold of Hermitian " ++ toString n ++ "x"
          ++ toString n ++ " matrices of rank " ++ toString k,
        dimension := 2 * (k : ℤ) * n - (k : ℤ) * k }

/-- Embedding of Elliptope.__init__ (psd.py lines 179-188); dimension =
n (k-1) - k (k-1)/2, no validation. -/
def Elliptope_init (n k : ℕ) : Except String ManifoldShape :=
  .ok { n := n, k := k,
        name := "Quotient manifold of " ++ toString n ++ "x" ++ toString n
          ++ " psd matrices of rank " ++ toString k
          ++ " with unit diagonal elements",
        dimension := (n : ℤ) * ((k : ℤ) - 1) - (k : ℤ) * ((k : ℤ) - 1) / 2 }

-- ## Product manifold (product.py, lines 31-109)

/-- The operator record of a child manifold, as used by Product: only
the operators that Product dispatches to and that the claims mention.
Points have type α, tangent vectors type β; rand stands for the point
the child's sampler returns. -/
structure MOps (α β : Type) where
  dim : ℤ
  inner : α → β → β → ℚ
  proj : α → β → β
  retr : α → β → α
  zerovec : α → β
  ehess2rhess : α → β → β → β → β
  rand : α

/-- Python list indexing for the non-negative indices produced by
range-based comprehensions: out-of-range access is an IndexError. -/
def pyGet {γ : Type} (xs : List γ) (i : ℕ) : Except String γ :=
  match xs[i]? with
  | some v => .ok v
  | none => .error "IndexError: list index out of range"

/-- Python list indexing with a possibly negative integer index: a
negative index counts from the end of the list; anything still out of
range is an IndexError. -/
def pyGetI {γ : Type} (xs : List γ) (i : ℤ) : Except String γ :=
  let j : ℤ := if i < 0 then i + xs.length else i
  if 0 ≤ j then pyGet xs j.toNat
  else .error "IndexError: list index out of range"

/-- Componentwise combination of three lists, truncating at the first
list's length; used to express range(len(ms)) comprehensions. -/
def zipWith3 {a b c d : Type} (f : a → b → c → d) :
    List a → List b → List c → List d
  | m :: ms, x :: xs, u :: us => f m x u :: zipWith3 f ms xs us
  | _, _, _ => []

/-- Componentwise combination of four lists, truncating at the first
list's length. -/
def zipWith4 {a b c d e : Type} (f : a → b → c → d → e) :
    List a → List b → List c → List d → List e
  | m :: ms, x :: xs, g :: gs, h :: hs => f m x g h :: zipWith4 f ms xs gs hs
  | _, _, _, _ => []

/-- Componentwise combination of five lists, truncating at the first
list's length. -/
def zipWith5 {a b c d e f : Type} (g : a → b → c → d → e → f) :
    List a → List b → List c → List d → List e → List f
  | m :: ms, x :: xs, p :: ps, q :: qs, h :: hs =>
      g m x p q h :: zipWith5 g ms xs ps qs hs
  | _, _, _, _, _ => []

/-- Embedding of Product.dim: np.sum of the children's dim values
(an empty sum is 0). -/
def prodDim {α β : Type} (ms : List (MOps α β)) : ℤ :=
  (ms.map (fun m => m.dim)).sum

/-- Embedding of Product.inner: the comprehension
[ms[k].inner(X[k], G[k], H[k]) for k in range(len(ms))] followed by
np.sum.  The comprehension indexes X, G and H at every k below len(ms),
so it raises IndexError exactly when one of them is shorter than ms;
otherwise it sums the childwise inner products (extra entries of longer
argument lists are never touched). -/
def prodInner {α β : Type} (ms : List (MOps α β)) (X : List α)
    (G H : List β) : Except String ℚ :=
  if ms.length ≤ X.length ∧ ms.length ≤ G.length ∧ ms.length ≤ H.length then
    .ok ((zipWith4 (fun m x g h => m.inner x g h) ms X G H).sum)
  else
    .error "IndexError: list index out of range"

/-- Embedding of Product.norm: np.sqrt of Product.inner(X, G, G); the
square root lives in the idealized reals. -/
noncomputable def prodNorm {α β : Type} (ms : List (MOps α β)) (X : List α)
    (G : List β) : Except String ℝ :=
  (prodInner ms X G G).map (fun q => Real.sqrt (q : ℝ))

/-- Embedding of Product.proj: childwise dispatch, same indexing
discipline as prodInner. -/
def prodProj {α β : Type} (ms : List (MOps α β)) (X : List α)
    (U : List β) : Except String (List β) :=
  if ms.length ≤ X.length ∧ ms.length ≤ U.length then
    .ok (zipWith3 (fun m x u => m.proj x u) ms X U)
  else
    .error "IndexError: list index out of range"

/-- Embedding of Product.retr: childwise dispatch. -/
def prodRetr {α β : Type} (ms : List (MOps α β)) (X : List α)
    (U : List β) : Except String (List α) :=
  if ms.length ≤ X.length ∧ ms.length ≤ U.length then
    .ok (zipWith3 (fun m x u => m.retr x u) ms X U)
  else
    .error "IndexError: list index out of range"

/-- Embedding of Product.zerovec: childwise dispatch (wrapped in a
TangentVector in the source; the wrapper adds no data). -/
def prodZerovec {α β : Type} (ms : List (MOps α β)) (X : List α) :
    Except String (List β) :=
  if ms.length ≤ X.length then
    .ok (List.zipWith (fun m x => m.zerovec x) ms X)
  else
    .error "IndexError: list index out of range"

/-- Embedding of Product.rand: one sample per child manifold. -/
def prodRand {α β : Type} (ms : List (MOps α β)) : List α :=
  ms.map (fun m => m.rand)

/-- Embedding of Product.ehess2rhess (product.py lines 72-76).  Its
first statement evaluates self._manifolds[self._nmanifolds - 1] and
discards the result; with zero children the index is -1 on an empty
list, an IndexError raised before the childwise dispatch runs. -/
def prodEhess2rhess {α β : Type} (ms : List (MOps α β)) (X : List α)
    (egrad ehess H : List β) : Except String (List β) :=
  match pyGetI ms ((ms.length : ℤ) - 1) with
  | .error e => .error e
  | .ok _ =>
    if ms.length ≤ X.length ∧ ms.length ≤ egrad.length
        ∧ ms.length ≤ ehess.length ∧ ms.length ≤ H.length then
      .ok (zipWith5 (fun m x p q h => m.ehess2rhess x p q h) ms X egrad ehess H)
    else
      .error "IndexError: list index out of range"

-- ## PSDFixedRank, real case (psd.py, class _PSDFixedRank)

/-- Real factor matrices; float entries are idealized as exact
rationals. -/
abbrev Mat (n k : ℕ) : Type := Matrix (Fin n) (Fin k) ℚ

/-- Embedding of _PSDFixedRank.inner: np.tensordot(U, V) with the
default double contraction, the Frobenius inner product. -/
def psdInner {n k : ℕ} (_Y U V : Mat n k) : ℚ :=
  ∑ i, ∑ j, U i j * V i j

/-- Y has full column rank: no nonzero vector is sent to zero. -/
def fullRank {n k : ℕ} (Y : Mat n k) : Prop :=
  ∀ v : Fin k → ℚ, v ≠ 0 → Y.mulVec v ≠ 0

/-- Relational embedding of _PSDFixedRank.proj (psd.py lines 31-36):
with YtY = Y.T @ Y and AS = Y.T @ H - H.T @ Y, the SciPy solver
returns some Omega with YtY Omega + Omega YtY^T = AS (its contract),
and proj returns H - Y @ Omega.  P is a possible output of proj(Y, H). -/
def projRel {n k : ℕ} (Y H P : Mat n k) : Prop :=
  ∃ Omega : Mat k k,
    (Yᵀ * Y) * Omega + Omega * (Yᵀ * Y)ᵀ = Yᵀ * H - Hᵀ * Y ∧
    P = H - Y * Omega

/-- Embedding of _PSDFixedRank.retr: Y + U. -/
def psdRetr {n k : ℕ} (Y U : Mat n k) : Mat n k :=
  Y + U

/-- Embedding of _PSDFixedRank.zerovec: the n-by-k zero matrix. -/
def psdZerovec (n k : ℕ) : Mat n k :=
  0

-- ## PSDFixedRankComplex (psd.py, class PSDFixedRankComplex)

/-- Complex n-by-k matrices, embedded as a pair of rational matrices
(the real and imaginary parts). -/
@[ext]
structure CMat (n k : ℕ) where
  re : Mat n k
  im : Mat n k
deriving DecidableEq

instance instCMatAdd {n k : ℕ} : Add (CMat n k) :=
  ⟨fun A B => ⟨A.re + B.re, A.im + B.im⟩⟩

instance instCMatSub {n k : ℕ} : Sub (CMat n k) :=
  ⟨fun A B => ⟨A.re - B.re, A.im - B.im⟩⟩

instance instCMatZero {n k : ℕ} : Zero (CMat n k) :=
  ⟨⟨0, 0⟩⟩

/-- Complex matrix product on the pair representation. -/
def cmul {n m p : ℕ} (A : CMat n m) (B : CMat m p) : CMat n p :=
  ⟨A.re * B.re - A.im * B.im, A.re * B.im + A.im * B.re⟩

/-- Plain transpose (numpy .T, which does not conjugate). -/
def ctrans {n m : ℕ} (A : CMat n m) : CMat m n :=
  ⟨A.reᵀ, A.imᵀ⟩

/-- Conjugate transpose (numpy .conj().T). -/
def cconjTrans {n m : ℕ} (A : CMat n m) : CMat m n :=
  ⟨A.reᵀ, -A.imᵀ⟩

/-- Real part of np.tensordot(U, V) on complex matrices: the double
contraction sum of U i j * V i j, without conjugation, real part. -/
def tensordotRe {n k : ℕ} (U V : CMat n k) : ℚ :=
  ∑ i, ∑ j, (U.re i j * V.re i j - U.im i j * V.im i j)

/-- Embedding of PSDFixedRankComplex.inner (psd.py lines 133-134):
2 * float(np.tensordot(U, V).real). -/
def cInner {n k : ℕ} (_Y U V : CMat n k) : ℚ :=
  2 * tensordotRe U V

/-- The metric the specification states for the complex manifold:
twice the real part of trace(U^* V), the conjugated Frobenius pairing
that identifies the complex tangent space with a real one.  Written
from the specification text, for comparison with cInner. -/
def specCInner {n k : ℕ} (U V : CMat n k) : ℚ :=
  2 * ∑ i, ∑ j, (U.re i j * V.re i j + U.im i j * V.im i j)

/-- Relational embedding of proj as inherited by PSDFixedRankComplex:
the source formula of _PSDFixedRank.proj applied verbatim to complex
matrices, with numpy .T the plain (unconjugated) transpose, and the
SciPy contract A X + X A^H = Q for the Lyapunov solve. -/
def cProjRelCode {n k : ℕ} (Y H P : CMat n k) : Prop :=
  ∃ Omega : CMat k k,
    cmul (cmul (ctrans Y) Y) Omega
        + cmul Omega (cconjTrans (cmul (ctrans Y) Y))
      = cmul (ctrans Y) H - cmul (ctrans H) Y ∧
    P = H - cmul Y Omega

/-- The Hermitian analogue of the projection formula, as the
specification describes it: YtY = Y^* Y and AS = Y^* H - H^* Y formed
with conjugate transposes, solve the Lyapunov equation, return
H - Y Omega.  Written from the specification text, for comparison with
cProjRelCode. -/
def cProjRelSpec {n k : ℕ} (Y H P : CMat n k) : Prop :=
  ∃ Omega : CMat k k,
    cmul (cmul (cconjTrans Y) Y) Omega
        + cmul Omega (cconjTrans (cmul (cconjTrans Y) Y))
      = cmul (cconjTrans Y) H - cmul (cconjTrans H) Y ∧
    P = H - cmul Y Omega

/-- Embedding of the retraction inherited by PSDFixedRankComplex:
Y + U. -/
def cRetr {n k : ℕ} (Y U : CMat n k) : CMat n k :=
  Y + U

/-- Embedding of the inherited zerovec: np.zeros((n, k)) is a real zero
matrix, i.e. zero real and imaginary parts. -/
def cZerovec (n k : ℕ) : CMat n k :=
  0

-- ## Elliptope (psd.py, class Elliptope)

/-- Real factor matrices with exact real entries; the Elliptope needs
genuine square roots, so it is embedded over the reals. -/
abbrev MatR (n k : ℕ) : Type := Matrix (Fin n) (Fin k) ℝ

/-- Euclidean norm of row i of Y, as la.norm(Y, axis=1) computes it. -/
noncomputable def rowNorm {n k : ℕ} (Y : MatR n k) (i : Fin n) : ℝ :=
  Real.sqrt (∑ j, (Y i j) ^ 2)

/-- Embedding of Elliptope._normalize_rows (psd.py lines 240-242):
divide every row by its Euclidean norm. -/
noncomputable def normalizeRows {n k : ℕ} (Y : MatR n k) : MatR n k :=
  fun i j => Y i j / rowNorm Y i

/-- Embedding of Elliptope.retr (psd.py lines 211-212):
normalize_rows(Y + U). -/
noncomputable def elliptopeRetr {n k : ℕ} (Y U : MatR n k) : MatR n k :=
  normalizeRows (Y + U)

/-- Embedding of Elliptope.rand (psd.py lines 230-231) with the Gaussian
sample made explicit: rand draws a matrix G = rnd.randn(n, k) and
returns its row-normalization. -/
noncomputable def elliptopeRand {n k : ℕ} (G : MatR n k) : MatR n k :=
  normalizeRows G

/-- Embedding of Elliptope.zerovec. -/
def elliptopeZerovec (n k : ℕ) : MatR n k :=
  0

/-- Every row of Y has Euclidean norm 1 (the unit-diagonal invariant of
the Elliptope point representation). -/
def unitRows {n k : ℕ} (Y : MatR n k) : Prop :=
  ∀ i, rowNorm Y i = 1

/-- U is tangent to the row spheres at Y: each row of U is orthogonal
to the corresponding row of Y.  Elliptope tangent vectors satisfy this
by construction (psd.py lines 246-250 subtract exactly these
components). -/
def rowTangent {n k : ℕ} (Y U : MatR n k) : Prop :=
  ∀ i, (∑ j, Y i j * U i j) = 0

-- ## Concrete inputs used by counterexamples and witnesses

/-- The 1-by-1 complex matrix whose single entry is the imaginary
unit. -/
def cUnitIm : CMat 1 1 :=
  ⟨0, fun _ _ => 1⟩

/-- The 1-by-1 complex matrix whose single entry is 1. -/
def cUnitRe : CMat 1 1 :=
  ⟨fun _ _ => 1, 0⟩

/-- The 1-by-1 real matrix whose entry is 1; a unit-row Elliptope
point. -/
def onesR : MatR 1 1 :=
  fun _ _ => 1

/-- A concrete child-manifold operator record over rational points and
tangents (flat translation geometry), used to instantiate Product
theorems. -/
def mopsId : MOps ℚ ℚ :=
  { dim := 0, inner := fun _ g h => g * h, proj := fun _ u => u,
    retr := fun x u => x + u, zerovec := fun _ => 0,
    ehess2rhess := fun _ _ _ h => h, rand := 0 }

-- ## Helper lemmas

lemma zipWith_getD_of_lt {β : Type} (f : β → β → β) (G H : List β) (i : ℕ)
    (hi : i < G.length) (hlen : G.length = H.length) (d : β) :
    (List.zipWith f G H).getD i d = f (G.getD i d) (H.getD i d) := by
  have hi2 : i < H.length := hlen ▸ hi
  have hG := List.getElem?_eq_getElem hi
  have hH := List.getElem?_eq_getElem hi2
  simp [List.getD_eq_getElem?_getD, List.getElem?_zipWith, hG, hH]

-- ## Claim C2

/-- Claim C2 is false as stated: constructing PSDFixedRank(1, 5),
PSDFixedRankComplex(1, 5) or Elliptope(1, 5), whose parameters violate
k ≤ n, succeeds (no contract failure is raised at construction time);
the first constructor even records the negative dimension -5. -/
theorem C2_counterexample :
    1 < 5 ∧
    (PSDFixedRank_init 1 5).isOk = true ∧
    (PSDFixedRankComplex_init 1 5).isOk = true ∧
    (Elliptope_init 1 5).isOk = true ∧
    (∀ s, PSDFixedRank_init 1 5 = .ok s → s.dimension = -5) := by
  refine ⟨by decide, rfl, rfl, rfl, ?_⟩
  intro s hs
  cases hs
  decide

/-- Claim C2 amended: the constructors of PSDFixedRank,
PSDFixedRankComplex and Elliptope perform no validation of (n, k) at
all; construction succeeds for every pair of parameters, including ones
violating k ≤ n, k ≥ 1 or n ≥ 1, and any violation surfaces only at
later use of an operator, not at construction. -/
theorem C2_constructors_never_fail (n k : ℕ) :
    (PSDFixedRank_init n k).isOk = true ∧
    (PSDFixedRankComplex_init n k).isOk = true ∧
    (Elliptope_init n k).isOk = true :=
  ⟨rfl, rfl, rfl⟩

-- ## Claim C4

/-- Claim C4 describes the intent of the method named __div__, but under
Python 3 the expression G / c never dispatches to that method (Python 3
uses the slot named __truediv__, which neither TangentVector nor list
defines), so G / c raises TypeError for every TangentVector G and
scalar c; at the concrete input G = [1], c = 2 the expression fails
while the dead method body would have produced [1/2]. -/
theorem C4_div_type_error :
    tvDivOp [(1 : ℚ)] 2 = .error "TypeError: unsupported operand type for /" ∧
    tvDivMethod [(1 : ℚ)] 2 = [1 / 2] :=
  ⟨rfl, rfl⟩

-- ## Claim C9

/-- Claim C9: the sum G + H of two TangentVectors raises a contract
violation (a failed assert) exactly when the lengths differ; with equal
lengths the result exists and its i-th component is G[i] + H[i] for
every index i below the length, and likewise for subtraction. -/
theorem C9_tv_add_sub {β : Type} [Add β] [Sub β] (G H : List β) :
    ((tvAdd G H).isOk = true ↔ G.length = H.length) ∧
    ((tvSub G H).isOk = true ↔ G.length = H.length) ∧
    (G.length = H.length →
      ∀ L, tvAdd G H = .ok L → ∀ i : ℕ, i < G.length → ∀ d : β,
        L.getD i d = G.getD i d + H.getD i d) ∧
    (G.length = H.length →
      ∀ L, tvSub G H = .ok L → ∀ i : ℕ, i < G.length → ∀ d : β,
        L.getD i d = G.getD i d - H.getD i d) := by
  refine ⟨?_, ?_, ?_, ?_⟩
  · by_cases h : G.length = H.length <;> simp [tvAdd, h, Except.isOk, Except.toBool]
  · by_cases h : G.length = H.length <;> simp [tvSub, h, Except.isOk, Except.toBool]
  · intro h L hL i hi d
    rw [tvAdd, if_pos h] at hL
    cases hL
    exact zipWith_getD_of_lt _ G H i hi h d
  · intro h L hL i hi d
    rw [tvSub, if_pos h] at hL
    cases hL
    exact zipWith_getD_of_lt _ G H i hi h d

/-- Witness for C9 at G = [1, 2], H = [5, 7] over the integers. -/
theorem C9_tv_witness :
    (([1, 2] : List ℤ).length = ([5, 7] : List ℤ).length) ∧
    (List.zipWith (fun a b => a + b) ([1, 2] : List ℤ) [5, 7]).getD 0 0
      = ([1, 2] : List ℤ).getD 0 0 + ([5, 7] : List ℤ).getD 0 0 :=
  ⟨rfl, (C9_tv_add_sub [1, 2] [5, 7]).2.2.1 rfl _ rfl 0 (by decide) 0⟩

-- ## Claim C8

/-- Claim C8: the Product of two child manifolds A and B has dim equal
to A.dim + B.dim, and its inner on index-aligned points and tangents is
the sum of the childwise inner products. -/
theorem C8_product_dim_inner {α β : Type} (A B : MOps α β)
    (xa xb : α) (ga gb ha hb : β) :
    prodDim [A, B] = A.dim + B.dim ∧
    prodInner [A, B] [xa, xb] [ga, gb] [ha, hb]
      = .ok (A.inner xa ga ha + B.inner xb gb hb) := by
  constructor
  · simp [prodDim]
  · simp [prodInner, zipWith4]

-- ## Claim C10

/-- Claim C10: a Product over the empty list of child manifolds is
constructed successfully and all aggregating operators degenerate
gracefully (dim 0, inner 0, norm 0, empty lists from proj, retr, rand
and zerovec), but ehess2rhess fails with an IndexError on every input,
because its first statement indexes child manifold number
nmanifolds - 1 = -1 of the empty list before dispatching. -/
theorem C10_empty_product {α β : Type} :
    prodDim ([] : List (MOps α β)) = 0 ∧
    (∀ (X : List α) (G H : List β), prodInner [] X G H = .ok 0) ∧
    (∀ (X : List α) (G : List β), prodNorm [] X G = .ok 0) ∧
    (∀ (X : List α) (U : List β), prodProj [] X U = .ok []) ∧
    (∀ (X : List α) (U : List β), prodRetr [] X U = .ok []) ∧
    prodRand ([] : List (MOps α β)) = [] ∧
    (∀ X : List α, prodZerovec ([] : List (MOps α β)) X = .ok []) ∧
    (∀ (X : List α) (eg eh H : List β),
      prodEhess2rhess [] X eg eh H
        = .error "IndexError: list index out of range") := by
  refine ⟨rfl, fun X G H => ?_, fun X G => ?_, fun X U => ?_, fun X U => ?_,
    rfl, fun X => ?_, fun X eg eh H => ?_⟩
  · simp [prodInner, zipWith4]
  · simp [prodNorm, prodInner, zipWith4, Except.map]
  · simp [prodProj, zipWith3]
  · simp [prodRetr, zipWith3]
  · simp [prodZerovec]
  · rfl

lemma cmatZero_re {n k : ℕ} : (0 : CMat n k).re = 0 := rfl

lemma cmatZero_im {n k : ℕ} : (0 : CMat n k).im = 0 := rfl

-- ## Claim C1

/-- Claim C1 is right about the intended metric but the code is wrong:
PSDFixedRankComplex.inner computes 2 * Re(tensordot(U, V)) without
conjugating U, so at the nonzero tangent U with single entry i (the
imaginary unit) it returns -2, while the doubled real part of
trace(U^* V) claimed by the specification (and by the manifold's own
docstring, which calls the metric the usual one for the complex plane
identified with R^2) is 2; positivity of inner(Y, U, U) fails and
norm(Y, U) = sqrt(-2) is not a well-defined non-negative real. -/
theorem C1_complex_inner_not_positive :
    cInner (0 : CMat 1 1) cUnitIm cUnitIm = -2 ∧
    specCInner cUnitIm cUnitIm = 2 ∧
    cUnitIm ≠ 0 := by
  refine ⟨?_, ?_, ?_⟩
  · simp [cInner, tensordotRe, cUnitIm]
  · simp [specCInner, cUnitIm]
  · intro h
    have h2 := congrArg (fun M => M.im 0 0) h
    simp [cUnitIm, cmatZero_im] at h2

-- ## Claim C3

lemma cmatAdd_re {n k : ℕ} (A B : CMat n k) : (A + B).re = A.re + B.re := rfl

lemma cmatAdd_im {n k : ℕ} (A B : CMat n k) : (A + B).im = A.im + B.im := rfl

lemma cmatSub_re {n k : ℕ} (A B : CMat n k) : (A - B).re = A.re - B.re := rfl

lemma cmatSub_im {n k : ℕ} (A B : CMat n k) : (A - B).im = A.im - B.im := rfl

/-- Claim C3 is false as stated: at Y = [[i]], H = [[1]] the code's
projection pipeline (plain numpy transposes) accepts the output [[1]]
(Omega = 0 already solves its Lyapunov equation, since Y.T @ H - H.T @ Y
vanishes without conjugation), but [[1]] is not a possible output of
the conjugate-transpose computation the claim describes, whose Lyapunov
data force Omega = [[-i]] and the output [[0]]. -/
theorem C3_counterexample :
    cProjRelCode cUnitIm cUnitRe cUnitRe ∧
    ¬ cProjRelSpec cUnitIm cUnitRe cUnitRe := by
  constructor
  · refine ⟨0, ?_, ?_⟩
    · apply CMat.ext <;> ext i j <;>
        simp [cmul, ctrans, cconjTrans, cmatAdd_re, cmatAdd_im, cmatSub_re,
          cmatSub_im, cmatZero_re, cmatZero_im, cUnitIm, cUnitRe,
          Matrix.mul_apply, Fin.sum_univ_one]
    · apply CMat.ext <;> ext i j <;>
        simp [cmul, cmatSub_re, cmatSub_im, cmatZero_re, cmatZero_im,
          cUnitIm, cUnitRe, Matrix.mul_apply, Fin.sum_univ_one]
  · rintro ⟨Om, heq, hP⟩
    have hre := congrArg (fun M => M.re 0 0) hP
    have him := congrArg (fun M => M.im 0 0) hP
    have heqim := congrArg (fun M => M.im 0 0) heq
    simp [cmul, ctrans, cconjTrans, cmatAdd_re, cmatAdd_im, cmatSub_re,
      cmatSub_im, cUnitIm, cUnitRe, Matrix.mul_apply,
      Fin.sum_univ_one] at hre him heqim
    linarith

/-- Claim C3 amended: the complex manifold inherits the real projection
formula verbatim, built from plain (unconjugated) numpy transposes:
YtY = Y.T @ Y and AS = Y.T @ H - H.T @ Y, solve the continuous Lyapunov
equation, return H - Y Omega.  This coincides with the Hermitian
analogue the claim describes exactly when Y and H are real, and differs
on genuinely complex inputs (see the counterexample). -/
theorem C3_proj_plain_transpose {n k : ℕ} (Y H P : CMat n k)
    (hY : Y.im = 0) (hH : H.im = 0) :
    cProjRelCode Y H P ↔ cProjRelSpec Y H P := by
  have hcc : cconjTrans Y = ctrans Y := by
    apply CMat.ext <;> simp [cconjTrans, ctrans, hY]
  have hccH : cconjTrans H = ctrans H := by
    apply CMat.ext <;> simp [cconjTrans, ctrans, hH]
  unfold cProjRelCode cProjRelSpec
  rw [hcc, hccH]

/-- Witness for the amended C3 at the real input Y = H = [[1]],
P = [[0]]. -/
theorem C3_witness :
    cUnitRe.im = 0 ∧
    (cProjRelCode cUnitRe cUnitRe 0 ↔ cProjRelSpec cUnitRe cUnitRe 0) :=
  ⟨rfl, C3_proj_plain_transpose cUnitRe cUnitRe 0 rfl rfl⟩

-- ## Claim C6

lemma unitRows_normalizeRows {n k : ℕ} (Y : MatR n k)
    (h : ∀ i, 0 < ∑ j, (Y i j) ^ 2) : unitRows (normalizeRows Y) := by
  intro i
  have hS := h i
  have hnn : (0 : ℝ) ≤ ∑ j, (Y i j) ^ 2 := le_of_lt hS
  have hsq : (rowNorm Y i) ^ 2 = ∑ j, (Y i j) ^ 2 := Real.sq_sqrt hnn
  have hone : ∑ j, (normalizeRows Y i j) ^ 2 = 1 := by
    simp only [normalizeRows, div_pow]
    rw [← Finset.sum_div, hsq, div_self (ne_of_gt hS)]
  show Real.sqrt _ = 1
  rw [hone, Real.sqrt_one]

lemma sum_sq_add_expand {n k : ℕ} (Y U : MatR n k) (i : Fin n) :
    ∑ j, ((Y + U) i j) ^ 2
      = (∑ j, (Y i j) ^ 2) + 2 * (∑ j, Y i j * U i j) + ∑ j, (U i j) ^ 2 := by
  have hterm : ∀ j, ((Y + U) i j) ^ 2
      = (Y i j) ^ 2 + 2 * (Y i j * U i j) + (U i j) ^ 2 := by
    intro j
    rw [Matrix.add_apply]
    ring
  rw [Finset.sum_congr rfl (fun j _ => hterm j), Finset.sum_add_distrib,
    Finset.sum_add_distrib, Finset.mul_sum]

/-- Claim C6: every Elliptope point produced by rand (row-normalizing a
sample whose rows are nonzero, as a Gaussian sample almost surely is)
has all rows of Euclidean norm 1, and retr(Y, U) keeps all rows at norm
1 whenever Y has unit rows and the tangent vector U is row-wise
orthogonal to Y (the tangency constraint Elliptope tangent vectors
satisfy by construction). -/
theorem C6_elliptope_unit_rows {n k : ℕ} :
    (∀ G : MatR n k, (∀ i, ∃ j, G i j ≠ 0) → unitRows (elliptopeRand G)) ∧
    (∀ Y U : MatR n k, unitRows Y → rowTangent Y U →
      unitRows (elliptopeRetr Y U)) := by
  constructor
  · intro G hG
    apply unitRows_normalizeRows
    intro i
    obtain ⟨j, hj⟩ := hG i
    exact Finset.sum_pos' (fun j2 _ => sq_nonneg (G i j2))
      ⟨j, Finset.mem_univ j, pow_two_pos_of_ne_zero hj⟩
  · intro Y U hY hT
    apply unitRows_normalizeRows
    intro i
    have hY1 : ∑ j, (Y i j) ^ 2 = 1 := by
      have := hY i
      rw [rowNorm, Real.sqrt_eq_one] at this
      exact this
    rw [sum_sq_add_expand, hY1, hT i]
    have hU : (0 : ℝ) ≤ ∑ j, (U i j) ^ 2 :=
      Finset.sum_nonneg (fun j _ => sq_nonneg (U i j))
    linarith

/-- Witness for C6 at n = k = 1: the all-ones sample and the zero
tangent vector. -/
theorem C6_witness :
    (∀ i, ∃ j, onesR i j ≠ 0) ∧ unitRows (elliptopeRand onesR) ∧
    unitRows onesR ∧ rowTangent onesR 0 ∧
    unitRows (elliptopeRetr onesR 0) := by
  have h1 : ∀ i, ∃ j, onesR i j ≠ (0 : ℝ) := fun i => ⟨0, one_ne_zero⟩
  have h2 : unitRows onesR := by
    intro i
    simp [rowNorm, onesR]
  have h3 : rowTangent onesR 0 := by
    intro i
    simp [onesR]
  exact ⟨h1, (C6_elliptope_unit_rows).1 onesR h1, h2, h3,
    (C6_elliptope_unit_rows).2 onesR 0 h2 h3⟩

-- ## Claim C7

lemma zipWith3_retr_zipWith_zero {α β : Type} :
    ∀ (ms : List (MOps α β)) (X : List α),
      X.length = ms.length →
      (∀ m ∈ ms, ∀ x, m.retr x (m.zerovec x) = x) →
      zipWith3 (fun m x u => m.retr x u) ms X
          (List.zipWith (fun m x => m.zerovec x) ms X) = X := by
  intro ms
  induction ms with
  | nil =>
    intro X hlen _
    cases X with
    | nil => rfl
    | cons x xs => simp at hlen
  | cons m ms ih =>
    intro X hlen hlaw
    cases X with
    | nil => simp at hlen
    | cons x xs =>
      simp only [List.length_cons, Nat.succ_inj] at hlen
      show (m.retr x (m.zerovec x)) :: _ = x :: xs
      rw [hlaw m (List.mem_cons_self m ms) x,
        ih xs hlen (fun m2 hm2 => hlaw m2 (List.mem_cons_of_mem m hm2))]

/-- Claim C7: for every manifold variant in scope, retracting the zero
tangent vector returns the point unchanged: PSDFixedRank and
PSDFixedRankComplex return Y + 0 = Y, the Elliptope re-normalizes the
rows of Y + 0 (a no-op on valid points, whose rows already have norm
1), and a Product whose children all satisfy the law satisfies it
childwise. -/
theorem C7_retr_at_zero :
    (∀ (n k : ℕ) (Y : Mat n k), psdRetr Y (psdZerovec n k) = Y) ∧
    (∀ (n k : ℕ) (Y : CMat n k), cRetr Y (cZerovec n k) = Y) ∧
    (∀ (n k : ℕ) (Y : MatR n k), unitRows Y →
      elliptopeRetr Y (elliptopeZerovec n k) = Y) ∧
    (∀ (α β : Type) (ms : List (MOps α β)) (X : List α),
      X.length = ms.length →
      (∀ m ∈ ms, ∀ x, m.retr x (m.zerovec x) = x) →
      ∃ Z, prodZerovec ms X = .ok Z ∧ prodRetr ms X Z = .ok X) := by
  refine ⟨?_, ?_, ?_, ?_⟩
  · intro n k Y
    exact add_zero Y
  · intro n k Y
    apply CMat.ext
    · rw [cRetr, cmatAdd_re, cZerovec, cmatZero_re, add_zero]
    · rw [cRetr, cmatAdd_im, cZerovec, cmatZero_im, add_zero]
  · intro n k Y hY
    have h0 : Y + elliptopeZerovec n k = Y := add_zero Y
    rw [elliptopeRetr, h0]
    funext i j
    rw [normalizeRows, hY i, div_one]
  · intro α β ms X hlen hlaw
    refine ⟨List.zipWith (fun m x => m.zerovec x) ms X, ?_, ?_⟩
    · rw [prodZerovec, if_pos (le_of_eq hlen.symm)]
    · rw [prodRetr, if_pos]
      · rw [zipWith3_retr_zipWith_zero ms X hlen hlaw]
      · constructor
        · exact le_of_eq hlen.symm
        · rw [List.length_zipWith, hlen, Nat.min_self]

/-- Witness for C7 at concrete inputs: the all-ones 1-by-1 Elliptope
point (which has unit rows) and a one-child Product over the flat
rational child. -/
theorem C7_witness :
    unitRows onesR ∧
    elliptopeRetr onesR (elliptopeZerovec 1 1) = onesR ∧
    ([(3 : ℚ)].length = [mopsId].length) ∧
    (∃ Z, prodZerovec [mopsId] [(3 : ℚ)] = .ok Z ∧
      prodRetr [mopsId] [(3 : ℚ)] Z = .ok [(3 : ℚ)]) := by
  have hY : unitRows onesR := by
    intro i
    simp [rowNorm, onesR]
  have hlaw : ∀ m ∈ [mopsId], ∀ x : ℚ, m.retr x (m.zerovec x) = x := by
    intro m hm x
    rw [List.mem_singleton] at hm
    subst hm
    simp [mopsId]
  exact ⟨hY, C7_retr_at_zero.2.2.1 1 1 onesR hY, rfl,
    C7_retr_at_zero.2.2.2 ℚ ℚ [mopsId] [(3 : ℚ)] rfl hlaw⟩

-- ## Claim C5

lemma quadForm_eq_self_dot {n k : ℕ} (Y : Mat n k) (w : Fin k → ℚ) :
    w ⬝ᵥ (Yᵀ * Y).mulVec w = (Y.mulVec w) ⬝ᵥ (Y.mulVec w) := by
  rw [← Matrix.mulVec_mulVec, Matrix.dotProduct_mulVec, Matrix.vecMul_transpose]

lemma dot_self_nonneg {k : ℕ} (v : Fin k → ℚ) : 0 ≤ v ⬝ᵥ v :=
  Finset.sum_nonneg (fun i _ => mul_self_nonneg (v i))

lemma trace_conj_form {k : ℕ} (A X : Mat k k) :
    Matrix.trace (Xᵀ * A * X)
      = ∑ j, (fun i => X i j) ⬝ᵥ A.mulVec (fun i => X i j) := by
  simp only [Matrix.trace, Matrix.diag_apply, Matrix.mul_apply,
    Matrix.transpose_apply, Matrix.dotProduct, Matrix.mulVec]
  refine Finset.sum_congr rfl (fun j _ => ?_)
  simp only [Finset.sum_mul, Finset.mul_sum]
  rw [Finset.sum_comm]
  exact Finset.sum_congr rfl (fun i _ =>
    Finset.sum_congr rfl (fun l _ => by ring))

lemma lyapHomogeneousUnique {n k : ℕ} (Y : Mat n k) (X : Mat k k)
    (hfr : fullRank Y)
    (heq : (Yᵀ * Y) * X + X * (Yᵀ * Y) = 0) : X = 0 := by
  have key : Matrix.trace (Xᵀ * ((Yᵀ * Y) * X + X * (Yᵀ * Y))) = 0 := by
    rw [heq, Matrix.mul_zero, Matrix.trace_zero]
  have expand : Matrix.trace (Xᵀ * ((Yᵀ * Y) * X + X * (Yᵀ * Y)))
      = Matrix.trace (Xᵀ * (Yᵀ * Y) * X)
        + Matrix.trace ((Xᵀ)ᵀ * (Yᵀ * Y) * Xᵀ) := by
    rw [Matrix.mul_add, Matrix.trace_add]
    congr 1
    · rw [← Matrix.mul_assoc]
    · rw [Matrix.trace_mul_comm, Matrix.transpose_transpose, Matrix.mul_assoc]
  have T1 : Matrix.trace (Xᵀ * (Yᵀ * Y) * X)
      = ∑ j, (Y.mulVec (fun i => X i j)) ⬝ᵥ (Y.mulVec (fun i => X i j)) := by
    rw [trace_conj_form]
    exact Finset.sum_congr rfl (fun j _ => quadForm_eq_self_dot Y _)
  have T2 : Matrix.trace ((Xᵀ)ᵀ * (Yᵀ * Y) * Xᵀ)
      = ∑ j, (Y.mulVec (fun i => Xᵀ i j)) ⬝ᵥ (Y.mulVec (fun i => Xᵀ i j)) := by
    rw [trace_conj_form]
    exact Finset.sum_congr rfl (fun j _ => quadForm_eq_self_dot Y _)
  have hsum : (∑ j, (Y.mulVec (fun i => X i j)) ⬝ᵥ (Y.mulVec (fun i => X i j)))
      + (∑ j, (Y.mulVec (fun i => Xᵀ i j)) ⬝ᵥ (Y.mulVec (fun i => Xᵀ i j)))
      = 0 := by
    rw [← T1, ← T2, ← expand, key]
  have h1nn : (0 : ℚ) ≤ ∑ j, (Y.mulVec (fun i => X i j)) ⬝ᵥ (Y.mulVec (fun i => X i j)) :=
    Finset.sum_nonneg (fun j _ => dot_self_nonneg _)
  have h2nn : (0 : ℚ) ≤ ∑ j, (Y.mulVec (fun i => Xᵀ i j)) ⬝ᵥ (Y.mulVec (fun i => Xᵀ i j)) :=
    Finset.sum_nonneg (fun j _ => dot_self_nonneg _)
  have h1z : (∑ j, (Y.mulVec (fun i => X i j)) ⬝ᵥ (Y.mulVec (fun i => X i j))) = 0 := by
    linarith
  have hterm : ∀ j : Fin k,
      (Y.mulVec (fun i => X i j)) ⬝ᵥ (Y.mulVec (fun i => X i j)) = 0 := by
    have := (Finset.sum_eq_zero_iff_of_nonneg
      (fun j _ => dot_self_nonneg (Y.mulVec (fun i => X i j)))).mp h1z
    intro j
    exact this j (Finset.mem_univ j)
  have hcol : ∀ j : Fin k, (fun i => X i j) = 0 := by
    intro j
    by_contra hne
    exact (hfr _ hne) (Matrix.dotProduct_self_eq_zero.mp (hterm j))
  ext i j
  exact congrFun (hcol j) i

lemma lyapSolutionSkew {n k : ℕ} (Y : Mat n k) (O AS : Mat k k)
    (hfr : fullRank Y) (hAS : ASᵀ = -AS)
    (he : (Yᵀ * Y) * O + O * (Yᵀ * Y) = AS) : Oᵀ = -O := by
  have hsymA : (Yᵀ * Y)ᵀ = Yᵀ * Y := by
    rw [Matrix.transpose_mul, Matrix.transpose_transpose]
  have ht := congrArg Matrix.transpose he
  rw [Matrix.transpose_add, Matrix.transpose_mul (Yᵀ * Y) O,
    Matrix.transpose_mul O (Yᵀ * Y), hsymA, hAS] at ht
  have h0 : (Yᵀ * Y) * (O + Oᵀ) + (O + Oᵀ) * (Yᵀ * Y) = 0 := by
    have hc : (Yᵀ * Y) * (O + Oᵀ) + (O + Oᵀ) * (Yᵀ * Y)
        = ((Yᵀ * Y) * O + O * (Yᵀ * Y)) + (Oᵀ * (Yᵀ * Y) + (Yᵀ * Y) * Oᵀ) := by
      noncomm_ring
    rw [hc, he, ht, add_neg_cancel]
  have hz : O + Oᵀ = 0 := lyapHomogeneousUnique Y (O + Oᵀ) hfr h0
  exact eq_neg_of_add_eq_zero_right hz

/-- Claim C5: for PSDFixedRank with k < n and a full-rank point Y, the
horizontal-space projection is idempotent: any output of proj(Y, H)
is a fixed point of proj(Y, -), i.e. projecting it again can only
return it unchanged.  (The result is exact over the idealized scalars;
the numerical tolerance of the claim is only needed for floating-point
arithmetic.) -/
theorem C5_proj_idempotent {n k : ℕ} (Y H P Q : Mat n k)
    (_hk : k < n) (hfr : fullRank Y)
    (h1 : projRel Y H P) (h2 : projRel Y P Q) : Q = P := by
  obtain ⟨O1, he1, hp1⟩ := h1
  obtain ⟨O2, he2, hp2⟩ := h2
  have hsymA : (Yᵀ * Y)ᵀ = Yᵀ * Y := by
    rw [Matrix.transpose_mul, Matrix.transpose_transpose]
  rw [hsymA] at he1 he2
  have hAS : (Yᵀ * H - Hᵀ * Y)ᵀ = -(Yᵀ * H - Hᵀ * Y) := by
    rw [Matrix.transpose_sub, Matrix.transpose_mul, Matrix.transpose_mul,
      Matrix.transpose_transpose, Matrix.transpose_transpose]
    rw [neg_sub]
  have hskew : O1ᵀ = -O1 := lyapSolutionSkew Y O1 _ hfr hAS he1
  have hAS2 : Yᵀ * P - Pᵀ * Y = 0 := by
    have hstep : Yᵀ * P - Pᵀ * Y
        = (Yᵀ * H - Hᵀ * Y) - ((Yᵀ * Y) * O1 + O1 * (Yᵀ * Y)) := by
      rw [hp1, Matrix.transpose_sub, Matrix.transpose_mul, hskew,
        Matrix.neg_mul, sub_neg_eq_add, Matrix.mul_sub, Matrix.add_mul,
        ← Matrix.mul_assoc, Matrix.mul_assoc O1 Yᵀ Y]
      abel
    rw [hstep, he1, sub_self]
  rw [hAS2] at he2
  have hO2 : O2 = 0 := lyapHomogeneousUnique Y O2 hfr he2
  rw [hp2, hO2, Matrix.mul_zero, sub_zero]

/-- Witness for C5 at n = 2, k = 1: Y = [[1], [0]] (full rank),
H = [[2], [3]]; here the skew data vanishes, Omega = 0 solves the
Lyapunov equation, proj(Y, H) can return H itself, and the theorem
forces the re-projection of that output to be the output again. -/
theorem C5_witness :
    (1 < 2) ∧ fullRank (fun i _ => if i = 0 then 1 else 0 : Mat 2 1) ∧
    projRel (fun i _ => if i = 0 then 1 else 0 : Mat 2 1)
      (fun i _ => if i = 0 then 2 else 3) (fun i _ => if i = 0 then 2 else 3) ∧
    ((fun i _ => if i = 0 then 2 else 3 : Mat 2 1)
      = (fun i _ => if i = 0 then 2 else 3 : Mat 2 1)) := by
  have hfr : fullRank (fun i _ => if i = 0 then 1 else 0 : Mat 2 1) := by
    intro v hv hzero
    apply hv
    funext j
    have h0 := congrFun hzero 0
    simp [Matrix.mulVec, Matrix.dotProduct, Fin.sum_univ_one] at h0
    have hj : j = 0 := Subsingleton.elim j 0
    rw [hj]
    exact h0
  have hproj : projRel (fun i _ => if i = 0 then 1 else 0 : Mat 2 1)
      (fun i _ => if i = 0 then 2 else 3)
      (fun i _ => if i = 0 then 2 else 3) := by
    refine ⟨0, ?_, ?_⟩
    · rw [Matrix.mul_zero, Matrix.zero_mul, add_zero]
      ext a b
      simp [Matrix.mul_apply, Matrix.transpose_apply, Fin.sum_univ_two]
    · rw [Matrix.mul_zero, sub_zero]
  exact ⟨one_lt_two, hfr, hproj,
    C5_proj_idempotent _ _ _ _ one_lt_two hfr hproj hproj⟩
